import Mathlib

/-!
Verification of the johnny multi-source version-resolution core
(`src/johnny.py`, with the async variant `src/johnny/__init__.py` sharing the
same core logic).

The development shallowly embeds:
* the version model: `packaging.version.parse` as used by `try_parse_versions`
  (PEP 440 pattern recognition; strings that fail the pattern are
  `LegacyVersion`s and are discarded; surviving versions are reduced to their
  base version, i.e. `epoch!release`, before being stored and compared);
* `try_parse_versions`, `update` (the merge engine), and the resolution
  pipeline `get_primary` / `get_secondary_source` / `run_secondary` /
  `get_secondary` / `get_vers` / `read_config`.

Python dicts keyed by package name are embedded as functions
`String → Option PyVersion` (each key is processed independently, so the
pointwise view is exact); ordered dicts of package configurations are embedded
as association lists in insertion order.  Provider functions are abstracted by
an oracle `Fetcher`; a raised exception in the Python code is an
`Except.error`.  Provider invocations are recorded as events
(source name, list of queried package names) so that statements about "which
provider was asked for which packages" can be made.
-/

namespace Johnny

/-! ## Version model

`packaging`'s `Version` comparison key for a base version (no pre/post/dev
segment, no local part) is `(epoch, release-with-trailing-zeros-dropped)`,
compared lexicographically, release tuples Python-tuple style
(a proper prefix is smaller).  `try_parse_versions` stores only base versions
(`version.parse(ver.base_version)`), so `PyVersion` keeps exactly the data of
a base version.
-/

structure PyVersion where
  epoch : Nat
  release : List Nat
  deriving DecidableEq, Repr

/-- `packaging._cmpkey`: drop trailing zero segments of the release tuple
(`reversed(dropwhile(λ x. x == 0, reversed(release)))`). -/
def trimZeros (l : List Nat) : List Nat :=
  (l.reverse.dropWhile (fun x => x == 0)).reverse

/-- Python tuple comparison on `List Nat`: lexicographic, a strict prefix is
smaller. -/
def lexLt : List Nat → List Nat → Bool
  | [], [] => false
  | [], _ :: _ => true
  | _ :: _, [] => false
  | a :: as, b :: bs => if a < b then true else if b < a then false else lexLt as bs

/-- `Version.__lt__` restricted to base versions: compare
`(epoch, trimZeros release)` lexicographically. -/
def vlt (x y : PyVersion) : Bool :=
  if x.epoch < y.epoch then true
  else if y.epoch < x.epoch then false
  else lexLt (trimZeros x.release) (trimZeros y.release)

/-- `x ≤ y` in `packaging`'s total preorder on base versions. -/
def vle (x y : PyVersion) : Bool := !(vlt y x)

/-- Stable insertion of a version into an ascending list (the element being
inserted comes from an earlier position of the original list, so it goes in
front of key-equal elements). -/
def insertVer (a : PyVersion) : List PyVersion → List PyVersion
  | [] => [a]
  | b :: bs => if vlt b a then b :: insertVer a bs else a :: b :: bs

/-- Python's `sorted` on a list of base versions (stable, ascending by the
comparison key). -/
def sortVers (l : List PyVersion) : List PyVersion := l.foldr insertVer []

/-! ## PEP 440 recognition (`packaging.version.parse`)

`version.parse(s)` matches `s` against `^\s* v? (N!)? N(.N)* PRE? POST? DEV?
(+LOCAL)? \s*$` (case-insensitively); on failure it returns a
`LegacyVersion`, which `try_parse_versions` discards.  On success
`try_parse_versions` keeps only `epoch` and `release` (the base version).
The optional suffix groups (pre/post/dev/local) only need to be recognised,
not captured, so they are embedded as nondeterministic remainder sets. -/

def isSpaceC (c : Char) : Bool :=
  c == ' ' || c == '\t' || c == '\n' || c == '\r' || c == '\x0b' || c == '\x0c'

def digitVal (c : Char) : Nat := c.toNat - '0'.toNat

def toNatDigits (ds : List Char) : Nat := ds.foldl (fun n c => n * 10 + digitVal c) 0

def spanDigits (cs : List Char) : List Char × List Char :=
  (cs.takeWhile Char.isDigit, cs.dropWhile Char.isDigit)

/-- `(?:\.[0-9]+)*`: greedily consume dot-separated numeric segments. -/
def relSegs : Nat → List Char → List Nat × List Char
  | 0, cs => ([], cs)
  | fuel + 1, cs =>
    match cs with
    | '.' :: rest =>
      let d := rest.takeWhile Char.isDigit
      if d.isEmpty then ([], cs)
      else
        let r := relSegs fuel (rest.dropWhile Char.isDigit)
        (toNatDigits d :: r.1, r.2)
    | _ => ([], cs)

/-- `[-_\.]?`: optionally consume one separator character. -/
def optSep (cs : List Char) : List (List Char) :=
  match cs with
  | c :: rest => if c = '-' || c = '_' || c = '.' then [cs, rest] else [cs]
  | [] => [cs]

/-- `([0-9]+)?`: optionally consume the leading digit run. -/
def optNum (cs : List Char) : List (List Char) :=
  let d := cs.takeWhile Char.isDigit
  if d.isEmpty then [cs] else [cs, cs.dropWhile Char.isDigit]

/-- One of the given literal words as a prefix (all alternatives of the
alternation, for backtracking completeness). -/
def wordAlt (ws : List String) (cs : List Char) : List (List Char) :=
  ws.filterMap (fun w =>
    if w.data.isPrefixOf cs then some (cs.drop w.data.length) else none)

def preWords : List String := ["a", "b", "c", "rc", "alpha", "beta", "pre", "preview"]

def postWords : List String := ["post", "rev", "r"]

/-- Possible remainders after the optional pre-release group
`([-_\.]? (a|b|c|rc|alpha|beta|pre|preview) [-_\.]? ([0-9]+)?)?`. -/
def preTail (cs : List Char) : List (List Char) :=
  cs :: (optSep cs).flatMap (fun s1 =>
    (wordAlt preWords s1).flatMap (fun r1 =>
      (optSep r1).flatMap optNum))

/-- Possible remainders after the optional post-release group
`((-([0-9]+)) | ([-_\.]? (post|rev|r) [-_\.]? ([0-9]+)?))?`. -/
def postTail (cs : List Char) : List (List Char) :=
  cs ::
    ((match cs with
      | '-' :: rest =>
        let d := rest.takeWhile Char.isDigit
        if d.isEmpty then [] else [rest.dropWhile Char.isDigit]
      | _ => []) ++
     (optSep cs).flatMap (fun s1 =>
       (wordAlt postWords s1).flatMap (fun r1 =>
         (optSep r1).flatMap optNum)))

/-- Possible remainders after the optional dev-release group
`([-_\.]? dev [-_\.]? ([0-9]+)?)?`. -/
def devTail (cs : List Char) : List (List Char) :=
  cs :: (optSep cs).flatMap (fun s1 =>
    (wordAlt ["dev"] s1).flatMap (fun r1 =>
      (optSep r1).flatMap optNum))

def isAlnumL (c : Char) : Bool := c.isDigit || (c ≥ 'a' && c ≤ 'z')

/-- `([-_\.][a-z0-9]+)*` up to end of input. -/
def localGroups : Nat → List Char → Bool
  | _, [] => true
  | 0, _ => false
  | fuel + 1, c :: rest =>
    if c = '-' || c = '_' || c = '.' then
      let d := rest.takeWhile isAlnumL
      if d.isEmpty then false else localGroups fuel (rest.dropWhile isAlnumL)
    else false

/-- `(\+[a-z0-9]+([-_\.][a-z0-9]+)*)?` immediately followed by end of input. -/
def localEnd (cs : List Char) : Bool :=
  match cs with
  | [] => true
  | '+' :: rest =>
    let d := rest.takeWhile isAlnumL
    if d.isEmpty then false
    else
      let r := rest.dropWhile isAlnumL
      localGroups r.length r
  | _ => false

/-- The remainder after the release segments matches `PRE? POST? DEV?
(+LOCAL)? $`. -/
def matchTail (cs : List Char) : Bool :=
  (preTail cs).any (fun p => (postTail p).any (fun q => (devTail q).any localEnd))

/-- `packaging.version.parse`, reduced to the data `try_parse_versions`
keeps: `some ⟨epoch, release⟩` when the string matches the PEP 440 pattern
(the parsed version's base version), `none` when it would be a
`LegacyVersion`. -/
def pyParse (s : String) : Option PyVersion :=
  let cs0 := s.data.map Char.toLower
  let cs1 := cs0.dropWhile isSpaceC
  let cs2 := (cs1.reverse.dropWhile isSpaceC).reverse
  let cs :=
    match cs2 with
    | 'v' :: r => r
    | r => r
  let d1 := cs.takeWhile Char.isDigit
  let r1 := cs.dropWhile Char.isDigit
  let eb : Nat × List Char :=
    match r1 with
    | '!' :: r2 => if d1.isEmpty then (0, cs) else (toNatDigits d1, r2)
    | _ => (0, cs)
  let d := eb.2.takeWhile Char.isDigit
  let r := eb.2.dropWhile Char.isDigit
  if d.isEmpty then none
  else
    let seg := relSegs r.length r
    if matchTail seg.2 then some ⟨eb.1, toNatDigits d :: seg.1⟩ else none

/-- Python `ver.strip("v")`: remove every leading and trailing `'v'`
character. -/
def stripV (s : String) : String :=
  String.mk (((s.data.dropWhile (fun c => c == 'v')).reverse.dropWhile
    (fun c => c == 'v')).reverse)

/-- `try_parse_versions` from `src/johnny.py`: strip `'v'`s, parse, drop
legacy versions, keep the base version, and return the ascending `sorted`
list. -/
def try_parse_versions (versions : List String) : List PyVersion :=
  sortVers (versions.foldl (fun res ver =>
    match pyParse (stripV ver) with
    | some v => res ++ [v]
    | none => res) [])

/-- The literal reading of the specification's parsing claim: strip one
leading `'v'` only (instead of Python's `strip("v")`), then parse, drop
legacy forms, and sort ascending. -/
def dropOneLeadingV (s : String) : String :=
  match s.data with
  | 'v' :: r => String.mk r
  | cs => String.mk cs

/-- `try_parse_versions` as worded by the specification (used to compare the
claimed behaviour with the code's). -/
def try_parse_versions_claimed (versions : List String) : List PyVersion :=
  sortVers (versions.filterMap (fun s => pyParse (dropOneLeadingV s)))

/-- "Ascending" in the sense of Python's `sorted`: pairwise `≤` under the
version comparison key. -/
def VersSorted (l : List PyVersion) : Prop :=
  List.Pairwise (fun x y => vle x y = true) l

/-! ## Merge engine (`update` from `src/johnny.py`)

A Python dict `name → Version` is embedded as a function
`String → Option PyVersion`; `update` copies `old` and then processes each
key of `new` exactly once, independently of the others, so its pointwise
embedding is exact.  The copy `res = dict(old)` also makes the source
function pure: neither input dict is mutated. -/

abbrev RMap := String → Option PyVersion

def emptyMap : RMap := fun _ => none

/-- `update(old, new)`: insert a missing key; replace only on strict
increase (`if v > ov`). -/
def update (old new : RMap) : RMap :=
  fun k =>
    match new k with
    | none => old k
    | some v =>
      match old k with
      | none => some v
      | some ov => if vlt ov v then some v else some ov

/-- One merge step on a single key's candidate. -/
def offersStep (acc : Option PyVersion) (v : PyVersion) : Option PyVersion :=
  match acc with
  | none => some v
  | some a => if vlt a v then some v else some a

def offersFold (acc : Option PyVersion) (l : List PyVersion) : Option PyVersion :=
  l.foldl offersStep acc

def b1W : RMap := fun k => if k = "p" then some ⟨0, [1, 9]⟩ else none

def b2W : RMap := fun k => if k = "p" then some ⟨0, [2, 0]⟩ else none

/-! ## Resolution pipeline

The configuration is an ordered dict `name → PackageConfig`; provider
functions are abstracted by a `Fetcher` oracle standing for `sources[k](args,
x)` — `Except.error` models a raised exception (network/JSON failure),
`Except.ok` a returned partial dict.  Every provider invocation `s(args, x)`
is recorded as an event `(source name, names of the queried batch)`. -/

structure PackageConfig where
  primary : Option String := none
  url : Option String := none
  github : Option String := none
  gitlab : Option String := none
  arch : Option String := none
  aur : Option String := none
  deriving DecidableEq, Repr

abbrev Config := List (String × PackageConfig)

abbrev Event := String × List String

abbrev Fetcher := String → Config → Except String RMap

/-- A fetcher in which no invocation fails (normal network operation). -/
def okFetch (f : String → Config → RMap) : Fetcher := fun s l => .ok (f s l)

/-- `sources_list = [github, gitlab, aur, arch]` (by provider name). -/
def sources_list : List String := ["github", "gitlab", "aur", "arch"]

/-- Keys of the `sources` registry dict: `sources_list` plus the three
manual registrations. -/
def sourcesRegistry : List String :=
  ["github", "gitlab", "aur", "arch", "github_tags", "gitlab_tags", "git"]

/-- The sort/group key of `get_primary`: `i[1]["primary"]`.  Only applied
to packages that have a `primary` field. -/
def pkey (kv : String × PackageConfig) : String := kv.2.primary.getD ""

/-- Python string `<`: lexicographic on code points, a proper prefix is
smaller. -/
def chListLt : List Char → List Char → Bool
  | [], [] => false
  | [], _ :: _ => true
  | _ :: _, [] => false
  | a :: as, b :: bs => if a < b then true else if b < a then false else chListLt as bs

def strLt (a b : String) : Bool := chListLt a.data b.data

/-- Stable insertion by the `primary` key (an element is placed in front of
the first element whose key is not strictly smaller, so elements from
earlier positions precede key-equal ones, as in Python's stable `sorted`). -/
def insertByKey (a : String × PackageConfig) : Config → Config
  | [] => [a]
  | b :: bs => if strLt (pkey b) (pkey a) then b :: insertByKey a bs else a :: b :: bs

/-- `sorted(primary, key=λ i. i[1]["primary"])` (stable). -/
def sortByKey (l : Config) : Config := l.foldr insertByKey []

/-- `itertools.groupby(·, key=pkey)`: maximal runs of consecutive elements
with equal key, each tagged with that key (fuelled structural recursion;
the fuel is always at least the list length). -/
def pyGroupByF : Nat → Config → List (String × Config)
  | _, [] => []
  | 0, _ :: _ => []
  | fuel + 1, a :: as =>
    (pkey a, a :: as.takeWhile (fun x => pkey x == pkey a)) ::
      pyGroupByF fuel (as.dropWhile (fun x => pkey x == pkey a))

def pyGroupBy (l : Config) : List (String × Config) := pyGroupByF l.length l

/-- The loop body of `get_primary`: for each group `(k, g)` (in sorted key
order) add `k` to AskedSet, look `k` up in the registry (a missing key
raises `KeyError` before any provider call for that group), invoke the
provider on the group and merge.  Returns the provider-invocation events
together with the result. -/
def get_primary_loop (fetch : Fetcher) :
    List (String × Config) → RMap → List String →
      List Event × Except String (RMap × List String)
  | [], vers, asked => ([], .ok (vers, asked))
  | (k, g) :: gs, vers, asked =>
    if sourcesRegistry.contains k then
      match fetch k g with
      | .error e => ([(k, g.map (fun kv => kv.1))], .error e)
      | .ok new =>
        let r := get_primary_loop fetch gs (update vers new) (k :: asked)
        ((k, g.map (fun kv => kv.1)) :: r.1, r.2)
    else ([], .error ("KeyError: " ++ k))

/-- `get_primary(args, c, vers)`: keep packages with a `primary` field,
sort them by that field, group consecutive equal keys, and process each
group. -/
def get_primary (fetch : Fetcher) (c : Config) (vers : RMap) :
    List Event × Except String (RMap × List String) :=
  get_primary_loop fetch
    (pyGroupBy (sortByKey (c.filter (fun kv => kv.2.primary.isSome)))) vers []

/-- `get_secondary_source(args, c, s, vers, left)`: invoke `s` on `left`,
merge, and either recompute `left` from scratch (`trust_secondary`) or
return it unchanged. -/
def get_secondary_source (fetch : Fetcher) (trust_secondary : Bool) (c : Config)
    (s : String) (vers : RMap) (left : Config) :
    List Event × Except String (RMap × Config) :=
  ([(s, left.map (fun kv => kv.1))],
    match fetch s left with
    | .error e => .error e
    | .ok new =>
      let vers2 := update vers new
      .ok (vers2,
        if trust_secondary then c.filter (fun kv => (vers2 kv.1).isNone) else left))

/-- The `for s in …: … if not left: break` loop of `run_secondary`. -/
def run_secondary_loop (fetch : Fetcher) (ts : Bool) (c : Config) :
    List String → RMap → Config → List Event × Except String (RMap × Config)
  | [], vers, left => ([], .ok (vers, left))
  | s :: rest, vers, left =>
    let st := get_secondary_source fetch ts c s vers left
    match st.2 with
    | .error e => (st.1, .error e)
    | .ok (vers2, left2) =>
      if left2.isEmpty then (st.1, .ok (vers2, left2))
      else
        let r := run_secondary_loop fetch ts c rest vers2 left2
        (st.1 ++ r.1, r.2)

/-- `run_secondary(args, c, vers, asked, left, l)`: skip entirely when
`left` is empty, otherwise loop over the providers of `sources_list`
selected by the predicate `l`. -/
def run_secondary (fetch : Fetcher) (ts : Bool) (c : Config) (vers : RMap)
    (asked : List String) (left : Config) (l : String → List String → Bool) :
    List Event × Except String (RMap × Config) :=
  if left.isEmpty then ([], .ok (vers, left))
  else run_secondary_loop fetch ts c (sources_list.filter (fun n => l n asked)) vers left

/-- `get_secondary(args, c, vers, asked, left)`: pass 1 over providers not
in AskedSet, then pass 2 over providers in AskedSet. -/
def get_secondary (fetch : Fetcher) (ts : Bool) (c : Config) (vers : RMap)
    (asked : List String) (left : Config) :
    List Event × Except String (RMap × Config) :=
  let p1 := run_secondary fetch ts c vers asked left
    (fun name asked2 => !(asked2.contains name))
  match p1.2 with
  | .error e => (p1.1, .error e)
  | .ok (v1, l1) =>
    let p2 := run_secondary fetch ts c v1 asked l1
      (fun name asked2 => asked2.contains name)
    (p1.1 ++ p2.1, p2.2)

/-- The four run options `get_vers` reads from the args dict. -/
structure Args where
  primary : Bool
  secondary : Bool
  trust_primary : Bool
  trust_secondary : Bool
  deriving DecidableEq, Repr

/-- `get_vers(args, c)`: primary phase (if enabled), LeftSet seeding
according to `trust_primary`, then the secondary cascade (if enabled and
something is left).  Returns the final resolution map and LeftSet. -/
def get_vers (fetch : Fetcher) (args : Args) (c : Config) :
    List Event × Except String (RMap × Config) :=
  let p := if args.primary then get_primary fetch c emptyMap
    else ([], .ok (emptyMap, []))
  match p.2 with
  | .error e => (p.1, .error e)
  | .ok (vers, asked) =>
    let left := if args.trust_primary then c.filter (fun kv => (vers kv.1).isNone) else c
    if args.secondary && !left.isEmpty then
      let sres := get_secondary fetch args.trust_secondary c vers asked left
      (p.1 ++ sres.1, sres.2)
    else (p.1, .ok (vers, left))

/-! ### `read_config` (option validation and defaulting) -/

/-- A value in the args/config dicts: a token string, a boolean flag, or
Python `None`. -/
inductive JVal where
  | vStr : String → JVal
  | vBool : Bool → JVal
  | vNone : JVal
  deriving DecidableEq, Repr

/-- The `defaults` dict from `src/johnny.py`. -/
def defaults : List (String × JVal) :=
  [("primary", .vBool true), ("secondary", .vBool true),
   ("trust_primary", .vBool true), ("trust_secondary", .vBool true),
   ("print_names", .vBool false), ("quiet", .vBool false)]

/-- The first config key that is not a recognised args key (the
loop `for k in config.keys(): if k not in args: raise KeyError`). -/
def findUnknown (argKeys : List String) : List (String × JVal) → Option String
  | [] => none
  | (k, _) :: rest => if argKeys.contains k then findUnknown argKeys rest else some k

def lookupD (l : List (String × JVal)) (k : String) (d : JVal) : JVal :=
  match l.lookup k with
  | some v => v
  | none => d

/-- `read_config(args, config)`: reject the first unknown config option
with a `KeyError`, otherwise fill every unset (`None`) arg from the config
or, failing that, from `defaults`.  No provider is invoked here. -/
def read_config (args : List (String × JVal)) (config : List (String × JVal)) :
    Except String (List (String × JVal)) :=
  match findUnknown (args.map (fun kv => kv.1)) config with
  | some k => .error ("KeyError: " ++ k)
  | none => .ok (args.map (fun kv =>
      (kv.1, if kv.2 = JVal.vNone
        then lookupD config kv.1 (lookupD defaults kv.1 JVal.vNone)
        else kv.2)))

/-- The keyword-argument names of the `cli` entry point (the recognised
option set). -/
def cliArgKeys : List String :=
  ["github_token", "gitlab_token", "primary", "secondary",
   "trust_primary", "trust_secondary", "print_names", "quiet"]

def exIsOk {α : Type} : Except String α → Bool
  | .ok _ => true
  | .error _ => false

def exErrMsg {α : Type} : Except String α → Option String
  | .ok _ => none
  | .error e => some e

/-! ### Concrete objects used by counterexamples and witnesses -/

def pkgPrim (s : String) : PackageConfig := { primary := some s }

/-- A fetcher in which every provider answers with the empty dict. -/
def fetchEmptyF : Fetcher := okFetch (fun _ _ => emptyMap)

/-- A fetcher in which every invocation raises (network failure). -/
def fetchFail : Fetcher := fun _ _ => .error "ConnectionError"

def v10 : PyVersion := ⟨0, [1, 0]⟩

def cfg6 : Config := [("a", pkgPrim "arch"), ("z", pkgPrim "zzz")]

def cfg7 : Config := [("p", ({} : PackageConfig))]

def cfg9 : Config := [("p1", pkgPrim "github")]

def f9 : String → Config → RMap := fun s _ =>
  if s = "github" then (fun n => if n = "p1" then some v10 else none) else emptyMap

def args9 : Args := ⟨true, false, false, true⟩

/-- The groups consumed by `get_primary`. -/
def primaryGroups (c : Config) : List (String × Config) :=
  pyGroupBy (sortByKey (c.filter (fun kv => kv.2.primary.isSome)))

/-- The flattened list of names queried during the primary phase. -/
def primaryQueried (f : String → Config → RMap) (c : Config) : List String :=
  ((get_primary (okFetch f) c emptyMap).1.map (fun e => e.2)).flatten

def cW5 : Config := [("a", pkgPrim "github"), ("b", {}), ("d", pkgPrim "arch")]

def f7full : String → Config → RMap := fun _ _ =>
  fun n => if n = "p" then some v10 else none

def cfgT : Config := [("t", pkgPrim "github_tags")]

/-! ## Order lemmas for the version comparison -/

theorem lexLt_irrefl (l : List Nat) : lexLt l l = false := by
  induction l with
  | nil => rfl
  | cons a as ih => simp [lexLt, ih]

theorem lexLt_trans {a b c : List Nat} (h1 : lexLt a b = true)
    (h2 : lexLt b c = true) : lexLt a c = true := by
  induction a generalizing b c with
  | nil =>
    cases b with
    | nil => simp [lexLt] at h1
    | cons y ys =>
      cases c with
      | nil => simp [lexLt] at h2
      | cons z zs => rfl
  | cons x xs ih =>
    cases b with
    | nil => simp [lexLt] at h1
    | cons y ys =>
      cases c with
      | nil => simp [lexLt] at h2
      | cons z zs =>
        simp only [lexLt] at h1 h2 ⊢
        by_cases hxy : x < y
        · by_cases hyz : y < z
          · simp [Nat.lt_trans hxy hyz]
          · by_cases hzy : z < y
            · simp [hyz, hzy] at h2
            · have hyz' : y = z := by omega
              subst hyz'
              simp [hxy]
        · by_cases hyx : y < x
          · simp [hxy, hyx] at h1
          · have hxy' : x = y := by omega
            subst hxy'
            simp only [hxy, if_neg, Nat.lt_irrefl, if_false] at h1
            by_cases hxz : x < z
            · simp [hxz]
            · by_cases hzx : z < x
              · simp [hxz, hzx] at h2
              · have hxz' : x = z := by omega
                subst hxz'
                simp only [Nat.lt_irrefl, if_false] at h2 ⊢
                exact ih h1 h2

theorem lexLt_conn {a b : List Nat} (h1 : lexLt a b = false)
    (h2 : lexLt b a = false) : a = b := by
  induction a generalizing b with
  | nil =>
    cases b with
    | nil => rfl
    | cons y ys => simp [lexLt] at h1
  | cons x xs ih =>
    cases b with
    | nil => simp [lexLt] at h2
    | cons y ys =>
      simp only [lexLt] at h1 h2
      by_cases hxy : x < y
      · simp [hxy] at h1
      · by_cases hyx : y < x
        · simp [hyx, hxy] at h2
        · have hxy' : x = y := by omega
          subst hxy'
          simp only [Nat.lt_irrefl, if_false] at h1 h2
          rw [ih h1 h2]

theorem lexLt_asymm {a b : List Nat} (h : lexLt a b = true) : lexLt b a = false := by
  by_contra hc
  have hba : lexLt b a = true := by
    cases hv : lexLt b a
    · exact absurd hv hc
    · rfl
  have := lexLt_trans h hba
  rw [lexLt_irrefl] at this
  exact Bool.false_ne_true this

theorem vlt_irrefl (x : PyVersion) : vlt x x = false := by
  simp [vlt, lexLt_irrefl]

theorem vlt_trans {x y z : PyVersion} (h1 : vlt x y = true)
    (h2 : vlt y z = true) : vlt x z = true := by
  simp only [vlt] at h1 h2 ⊢
  by_cases e1 : x.epoch < y.epoch
  · by_cases e2 : y.epoch < z.epoch
    · have hxz : x.epoch < z.epoch := Nat.lt_trans e1 e2
      simp [hxz]
    · by_cases e4 : z.epoch < y.epoch
      · rw [if_neg e2, if_pos e4] at h2
        exact absurd h2 (by decide)
      · have hxz : x.epoch < z.epoch := by omega
        simp [hxz]
  · by_cases e3 : y.epoch < x.epoch
    · rw [if_neg e1, if_pos e3] at h1
      exact absurd h1 (by decide)
    · rw [if_neg e1, if_neg e3] at h1
      by_cases e2 : y.epoch < z.epoch
      · have hxz : x.epoch < z.epoch := by omega
        simp [hxz]
      · by_cases e4 : z.epoch < y.epoch
        · rw [if_neg e2, if_pos e4] at h2
          exact absurd h2 (by decide)
        · rw [if_neg e2, if_neg e4] at h2
          have nxz : ¬ x.epoch < z.epoch := by omega
          have nzx : ¬ z.epoch < x.epoch := by omega
          rw [if_neg nxz, if_neg nzx]
          exact lexLt_trans h1 h2

theorem vlt_asymm {x y : PyVersion} (h : vlt x y = true) : vlt y x = false := by
  by_contra hc
  have hyx : vlt y x = true := by
    cases hv : vlt y x
    · exact absurd hv hc
    · rfl
  have := vlt_trans h hyx
  rw [vlt_irrefl] at this
  exact Bool.false_ne_true this

theorem vlt_conn {x y : PyVersion} (h1 : vlt x y = false) (h2 : vlt y x = false) :
    x.epoch = y.epoch ∧ trimZeros x.release = trimZeros y.release := by
  simp only [vlt] at h1 h2
  by_cases e1 : x.epoch < y.epoch
  · simp [e1] at h1
  · by_cases e2 : y.epoch < x.epoch
    · simp [e1, e2] at h2
    · have he : x.epoch = y.epoch := by omega
      rw [if_neg e1, if_neg e2] at h1
      rw [if_neg e2, if_neg e1] at h2
      exact ⟨he, lexLt_conn h1 h2⟩

theorem vlt_congr_right {x y z : PyVersion} (he : x.epoch = y.epoch)
    (ht : trimZeros x.release = trimZeros y.release) : vlt z x = vlt z y := by
  simp [vlt, he, ht]

theorem vle_refl (x : PyVersion) : vle x x = true := by
  simp [vle, vlt_irrefl]

theorem vle_of_vlt {x y : PyVersion} (h : vlt x y = true) : vle x y = true := by
  simp [vle, vlt_asymm h]

theorem vle_of_not_vlt {x y : PyVersion} (h : vlt y x = false) : vle x y = true := by
  simp [vle, h]

theorem vle_trans {x y z : PyVersion} (h1 : vle x y = true) (h2 : vle y z = true) :
    vle x z = true := by
  simp only [vle, Bool.not_eq_true'] at h1 h2 ⊢
  by_cases hxy : vlt x y = true
  · cases hzx : vlt z x
    · rfl
    · have := vlt_trans hzx hxy
      rw [this] at h2
      exact h2
  · have hxy' : vlt x y = false := by
      cases hv : vlt x y
      · rfl
      · exact absurd hv hxy
    obtain ⟨he, ht⟩ := vlt_conn hxy' h1
    rw [vlt_congr_right he ht]
    exact h2

/-! ## Sorting lemmas -/

theorem insertVer_perm (a : PyVersion) (l : List PyVersion) :
    List.Perm (insertVer a l) (a :: l) := by
  induction l with
  | nil => rfl
  | cons b bs ih =>
    simp only [insertVer]
    by_cases hba : vlt b a
    · simp only [hba, if_true]
      exact (ih.cons b).trans (List.Perm.swap a b bs)
    · simp [hba]

theorem mem_insertVer {x a : PyVersion} {l : List PyVersion} :
    x ∈ insertVer a l ↔ x = a ∨ x ∈ l := by
  rw [(insertVer_perm a l).mem_iff]
  simp

theorem insertVer_sorted {a : PyVersion} {l : List PyVersion}
    (h : VersSorted l) : VersSorted (insertVer a l) := by
  induction l with
  | nil => simp [insertVer, VersSorted]
  | cons b bs ih =>
    obtain ⟨hb, hbs⟩ := List.pairwise_cons.mp h
    simp only [insertVer]
    by_cases hba : vlt b a
    · simp only [hba, if_true]
      refine List.Pairwise.cons ?_ (ih hbs)
      intro x hx
      rcases mem_insertVer.mp hx with rfl | hxbs
      · exact vle_of_vlt hba
      · exact hb x hxbs
    · simp only [hba, if_false]
      have hba' : vlt b a = false := by
        cases hv : vlt b a
        · rfl
        · exact absurd hv hba
      have hab : vle a b = true := vle_of_not_vlt hba'
      refine List.Pairwise.cons ?_ h
      intro x hx
      rcases List.mem_cons.mp hx with rfl | hxbs
      · exact hab
      · exact vle_trans hab (hb x hxbs)

theorem sortVers_perm (l : List PyVersion) : List.Perm (sortVers l) l := by
  induction l with
  | nil => rfl
  | cons x xs ih =>
    have : sortVers (x :: xs) = insertVer x (sortVers xs) := rfl
    rw [this]
    exact (insertVer_perm x (sortVers xs)).trans (ih.cons x)

theorem sortVers_sorted (l : List PyVersion) : VersSorted (sortVers l) := by
  induction l with
  | nil => simp [sortVers, VersSorted]
  | cons x xs ih => exact insertVer_sorted ih

theorem try_parse_foldl (l : List String) (acc : List PyVersion) :
    (l.foldl (fun res ver =>
      match pyParse (stripV ver) with
      | some v => res ++ [v]
      | none => res) acc)
      = acc ++ l.filterMap (fun s => pyParse (stripV s)) := by
  induction l generalizing acc with
  | nil => simp
  | cons x xs ih =>
    simp only [List.foldl_cons, List.filterMap_cons]
    cases h : pyParse (stripV x) with
    | none => simp [h, ih]
    | some v => simp [h, ih]

theorem update_apply_none {old new : RMap} {k : String} (h : new k = none) :
    update old new k = old k := by
  simp [update, h]

theorem update_apply_some {old new : RMap} {k : String} {v : PyVersion}
    (h : new k = some v) : update old new k = offersStep (old k) v := by
  simp only [update, h]
  cases old k <;> rfl

theorem foldl_update_apply (bs : List RMap) (m : RMap) (k : String) :
    (bs.foldl update m) k = offersFold (m k) (bs.filterMap (fun b => b k)) := by
  induction bs generalizing m with
  | nil => simp [offersFold]
  | cons b bs ih =>
    simp only [List.foldl_cons, List.filterMap_cons]
    cases hb : b k with
    | none =>
      rw [ih, update_apply_none hb]
    | some v =>
      rw [ih, update_apply_some hb]
      rfl

theorem offersFold_acc_some (l : List PyVersion) (a : PyVersion) :
    ∃ r, offersFold (some a) l = some r ∧ (r = a ∨ r ∈ l) ∧ vle a r = true ∧
      ∀ v ∈ l, vle v r = true := by
  induction l generalizing a with
  | nil => exact ⟨a, rfl, Or.inl rfl, vle_refl a, by simp⟩
  | cons x xs ih =>
    have step : offersFold (some a) (x :: xs) = offersFold (offersStep (some a) x) xs := rfl
    by_cases hax : vlt a x
    · obtain ⟨r, hr, hmem, hxr, hall⟩ := ih x
      have hstep : offersStep (some a) x = some x := by simp [offersStep, hax]
      refine ⟨r, by rw [step, hstep]; exact hr, ?_, ?_, ?_⟩
      · rcases hmem with rfl | hrx
        · exact Or.inr (List.mem_cons_self _ _)
        · exact Or.inr (List.mem_cons_of_mem _ hrx)
      · exact vle_trans (vle_of_vlt hax) hxr
      · intro v hv
        rcases List.mem_cons.mp hv with rfl | hvxs
        · exact hxr
        · exact hall v hvxs
    · obtain ⟨r, hr, hmem, har, hall⟩ := ih a
      have hax' : vlt a x = false := by
        cases hv : vlt a x
        · rfl
        · exact absurd hv hax
      have hstep : offersStep (some a) x = some a := by simp [offersStep, hax]
      refine ⟨r, by rw [step, hstep]; exact hr, ?_, har, ?_⟩
      · rcases hmem with rfl | hrx
        · exact Or.inl rfl
        · exact Or.inr (List.mem_cons_of_mem _ hrx)
      · intro v hv
        rcases List.mem_cons.mp hv with rfl | hvxs
        · exact vle_trans (vle_of_not_vlt hax') har
        · exact hall v hvxs

/-- C1: merging a sequence of batch results into an initially empty
resolution map via `update` never decreases the version recorded for any
name, a name never offered has no entry, and a name that was offered ends
at a stored value that is one of the offered versions and is `≥` (in the
version-key preorder) every offered version. -/
theorem C1_merge_monotone_max :
    (∀ (m b : RMap) (k : String) (v : PyVersion), m k = some v →
        ∃ w, update m b k = some w ∧ vle v w = true)
    ∧ (∀ (bs : List RMap) (k : String),
        bs.filterMap (fun b => b k) = [] → (bs.foldl update emptyMap) k = none)
    ∧ (∀ (bs : List RMap) (k : String), bs.filterMap (fun b => b k) ≠ [] →
        ∃ r, (bs.foldl update emptyMap) k = some r ∧
          r ∈ bs.filterMap (fun b => b k) ∧
          ∀ v ∈ bs.filterMap (fun b => b k), vle v r = true) := by
  refine ⟨?_, ?_, ?_⟩
  · intro m b k v hv
    cases hb : b k with
    | none => exact ⟨v, by rw [update_apply_none hb, hv], vle_refl v⟩
    | some u =>
      rw [update_apply_some hb, hv]
      by_cases hvu : vlt v u
      · exact ⟨u, by simp [offersStep, hvu], vle_of_vlt hvu⟩
      · have hvu' : vlt v u = false := by
          cases hx : vlt v u
          · rfl
          · exact absurd hx hvu
        exact ⟨v, by simp [offersStep, hvu], vle_refl v⟩
  · intro bs k h
    rw [foldl_update_apply, h]
    rfl
  · intro bs k h
    rw [foldl_update_apply]
    cases hl : bs.filterMap (fun b => b k) with
    | nil => exact absurd hl h
    | cons x xs =>
      have : offersFold (emptyMap k) (x :: xs) = offersFold (some x) xs := rfl
      rw [this]
      obtain ⟨r, hr, hmem, hxr, hall⟩ := offersFold_acc_some xs x
      refine ⟨r, hr, ?_, ?_⟩
      · rcases hmem with rfl | hrx
        · exact List.mem_cons_self _ _
        · exact List.mem_cons_of_mem _ hrx
      · intro v hv
        rcases List.mem_cons.mp hv with rfl | hvxs
        · exact hxr
        · exact hall v hvxs

/-- Witness for C1 at a concrete two-batch sequence. -/
theorem C1_merge_monotone_max_witness :
    ∃ r, (([b1W, b2W] : List RMap).foldl update emptyMap) "p" = some r ∧
      r ∈ ([b1W, b2W] : List RMap).filterMap (fun b => b "p") ∧
      ∀ v ∈ ([b1W, b2W] : List RMap).filterMap (fun b => b "p"), vle v r = true :=
  C1_merge_monotone_max.2.2 [b1W, b2W] "p" (by decide)

/-- C2: pointwise behaviour of `update(old, new)`: a name absent from `old`
is inserted, a strictly greater version replaces, a lesser-or-equal one is
discarded, and names absent from `new` keep their `old` entry.  (Purity
holds by construction of the embedding: the source copies `old` with
`dict(old)` and mutates only the copy.) -/
theorem C2_update_pointwise :
    ∀ (old new : RMap) (k : String),
      (new k = none → update old new k = old k)
      ∧ (∀ v, new k = some v → old k = none → update old new k = some v)
      ∧ (∀ v ov, new k = some v → old k = some ov → vlt ov v = true →
          update old new k = some v)
      ∧ (∀ v ov, new k = some v → old k = some ov → vlt ov v = false →
          update old new k = some ov) := by
  intro old new k
  refine ⟨fun h => update_apply_none h, ?_, ?_, ?_⟩
  · intro v hv ho
    rw [update_apply_some hv, ho]
    rfl
  · intro v ov hv ho hlt
    rw [update_apply_some hv, ho]
    simp [offersStep, hlt]
  · intro v ov hv ho hlt
    rw [update_apply_some hv, ho]
    simp [offersStep, hlt]

/-- Witness for C2: the four cases at concrete maps and keys. -/
theorem C2_update_pointwise_witness :
    update b1W b2W "q" = b1W "q"
    ∧ update emptyMap b2W "p" = some ⟨0, [2, 0]⟩
    ∧ update b1W b2W "p" = some ⟨0, [2, 0]⟩
    ∧ update b2W b1W "p" = some ⟨0, [2, 0]⟩ :=
  ⟨(C2_update_pointwise b1W b2W "q").1 (by decide),
   (C2_update_pointwise emptyMap b2W "p").2.1 _ (by decide) (by decide),
   (C2_update_pointwise b1W b2W "p").2.2.1 ⟨0, [2, 0]⟩ ⟨0, [1, 9]⟩
     (by decide) (by decide) (by decide),
   (C2_update_pointwise b2W b1W "p").2.2.2 ⟨0, [1, 9]⟩ ⟨0, [2, 0]⟩
     (by decide) (by decide) (by decide)⟩

/-! ## C3: behaviour of `try_parse_versions` -/

/-- C3 counterexample: the claim strips only a leading `'v'`, so
`"1.2.3v"` would remain `"1.2.3v"`, fail the release pattern (legacy form)
and be dropped; the code's `ver.strip("v")` also removes the trailing
`'v'`, so the string parses to `1.2.3` and is kept. -/
theorem C3_strip_claim_counterexample :
    try_parse_versions ["1.2.3v"] = [⟨0, [1, 2, 3]⟩]
    ∧ try_parse_versions_claimed ["1.2.3v"] = [] := by decide

/-- C3 (amended): `try_parse_versions` strips all leading and trailing
`'v'` characters (Python `strip("v")`), drops strings that only parse as
legacy forms, keeps each survivor's base version, and returns them sorted
ascending; empty or all-invalid input yields the empty list. -/
theorem C3_try_parse_versions_amended :
    (∀ l : List String,
        try_parse_versions l = sortVers (l.filterMap (fun s => pyParse (stripV s))))
    ∧ (∀ l : List String, VersSorted (try_parse_versions l))
    ∧ try_parse_versions [] = []
    ∧ (∀ l : List String, (∀ s ∈ l, pyParse (stripV s) = none) →
        try_parse_versions l = []) := by
  have key : ∀ l : List String,
      try_parse_versions l = sortVers (l.filterMap (fun s => pyParse (stripV s))) := by
    intro l
    unfold try_parse_versions
    rw [try_parse_foldl]
    simp
  refine ⟨key, ?_, rfl, ?_⟩
  · intro l
    rw [key]
    exact sortVers_sorted _
  · intro l h
    rw [key]
    have hnil : l.filterMap (fun s => pyParse (stripV s)) = [] := by
      rw [List.filterMap_eq_nil_iff]
      exact h
    rw [hnil]
    rfl

/-- Witness for C3 (amended) at concrete inputs, including the
all-invalid case. -/
theorem C3_try_parse_versions_amended_witness :
    try_parse_versions ["v1.2.3", "garbage", "1.2.4"]
      = sortVers ((["v1.2.3", "garbage", "1.2.4"] : List String).filterMap
          (fun s => pyParse (stripV s)))
    ∧ try_parse_versions ["garbage", "not.a.version"] = [] :=
  ⟨C3_try_parse_versions_amended.1 _,
   C3_try_parse_versions_amended.2.2.2 ["garbage", "not.a.version"] (by decide)⟩

/-! ## C4: the version ordering -/

theorem lexLt_nil_right (l : List Nat) : lexLt l [] = false := by
  cases l <;> rfl

theorem lexLt_append_right (l u : List Nat) (hu : u ≠ []) :
    lexLt l (l ++ u) = true := by
  induction l with
  | nil =>
    cases u with
    | nil => exact absurd rfl hu
    | cons a as => rfl
  | cons a as ih => simp [lexLt, ih]

theorem dropWhile_append_split {α : Type} (p : α → Bool) (l1 l2 : List α) :
    (l1 ++ l2).dropWhile p =
      if (l1.dropWhile p).isEmpty then l2.dropWhile p else l1.dropWhile p ++ l2 := by
  induction l1 with
  | nil => simp
  | cons a as ih =>
    by_cases ha : p a
    · simp [List.dropWhile_cons, ha, ih]
    · simp [List.dropWhile_cons, ha]

theorem trimZeros_append (xs ys : List Nat) :
    trimZeros (xs ++ ys) =
      if trimZeros ys = [] then trimZeros xs else xs ++ trimZeros ys := by
  unfold trimZeros
  rw [List.reverse_append, dropWhile_append_split]
  by_cases h : (ys.reverse.dropWhile (fun x => x == 0)).isEmpty
  · rw [if_pos h]
    have h2 : (ys.reverse.dropWhile (fun x => x == 0)).reverse = [] := by
      rw [List.isEmpty_iff] at h
      rw [h]
      rfl
    rw [if_pos h2]
  · rw [if_neg h]
    have h2 : ¬ (ys.reverse.dropWhile (fun x => x == 0)).reverse = [] := by
      rw [List.isEmpty_iff] at h
      simp [h]
    rw [if_neg h2, List.reverse_append, List.reverse_reverse]

theorem trimZeros_eq_nil_iff (l : List Nat) :
    trimZeros l = [] ↔ ∀ x ∈ l, x = 0 := by
  unfold trimZeros
  rw [List.reverse_eq_nil_iff, List.dropWhile_eq_nil_iff]
  simp

theorem exists_trimZeros_append (l : List Nat) :
    ∃ u, l = trimZeros l ++ u := by
  refine ⟨(l.reverse.takeWhile (fun x => x == 0)).reverse, ?_⟩
  unfold trimZeros
  rw [← List.reverse_append, List.takeWhile_append_dropWhile, List.reverse_reverse]

theorem trimZeros_singleton (a : Nat) :
    trimZeros [a] = if a = 0 then [] else [a] := by
  by_cases za : a = 0
  · subst za
    simp [trimZeros, List.dropWhile]
  · have hb : (a == 0) = false := by simpa using za
    simp [trimZeros, List.dropWhile, hb, za]

theorem trimZeros_cons_nil {a : Nat} {l : List Nat} (h : trimZeros l = []) :
    trimZeros (a :: l) = if a = 0 then [] else [a] := by
  have : a :: l = [a] ++ l := rfl
  rw [this, trimZeros_append, if_pos h, trimZeros_singleton]

theorem trimZeros_cons_ne {a : Nat} {l : List Nat} (h : ¬ trimZeros l = []) :
    trimZeros (a :: l) = a :: trimZeros l := by
  have : a :: l = [a] ++ l := rfl
  rw [this, trimZeros_append, if_neg h]
  rfl

theorem lexLt_trimZeros_eq_len {as bs : List Nat} (h : as.length = bs.length) :
    lexLt (trimZeros as) (trimZeros bs) = lexLt as bs := by
  induction as generalizing bs with
  | nil =>
    cases bs with
    | nil => rfl
    | cons b bs => simp at h
  | cons a as ih =>
    cases bs with
    | nil => simp at h
    | cons b bs =>
      have hlen : as.length = bs.length := by simpa using h
      have ihr := ih hlen
      by_cases ha : trimZeros as = [] <;> by_cases hb : trimZeros bs = []
      · have h1 : lexLt as bs = false := by
          rw [← ihr, ha, hb]
          rfl
        rw [trimZeros_cons_nil ha, trimZeros_cons_nil hb]
        by_cases za : a = 0 <;> by_cases zb : b = 0
        · subst za; subst zb
          simp [lexLt, h1]
        · subst za
          have hbpos : 0 < b := Nat.pos_of_ne_zero zb
          simp [lexLt, zb, hbpos]
        · subst zb
          have hapos : 0 < a := Nat.pos_of_ne_zero za
          simp [lexLt, za, hapos, Nat.not_lt_zero]
        · simp [lexLt, za, zb, h1]
      · have hnil : lexLt ([] : List Nat) (trimZeros bs) = true := by
          cases htb : trimZeros bs with
          | nil => exact absurd htb hb
          | cons c cs => rfl
        have h1 : lexLt as bs = true := by
          rw [← ihr, ha]
          exact hnil
        rw [trimZeros_cons_nil ha, trimZeros_cons_ne hb]
        by_cases za : a = 0
        · subst za
          by_cases zb0 : 0 < b <;> simp [lexLt, zb0, h1, Nat.not_lt_zero]
        · rw [if_neg za]
          by_cases hab : a < b
          · simp [lexLt, hab]
          · by_cases hba : b < a
            · simp [lexLt, hab, hba]
            · simp [lexLt, hab, hba, h1, hnil]
      · have h1 : lexLt as bs = false := by
          rw [← ihr, hb]
          exact lexLt_nil_right _
        rw [trimZeros_cons_ne ha, trimZeros_cons_nil hb]
        by_cases zb : b = 0
        · subst zb
          by_cases za0 : 0 < a <;>
            simp [lexLt, za0, h1, Nat.not_lt_zero, lexLt_nil_right]
        · rw [if_neg zb]
          by_cases hab : a < b
          · simp [lexLt, hab]
          · by_cases hba : b < a
            · simp [lexLt, hab, hba]
            · simp [lexLt, hab, hba, h1, lexLt_nil_right]
      · rw [trimZeros_cons_ne ha, trimZeros_cons_ne hb]
        simp [lexLt, ihr]

theorem vlt_prefix_iff {a b : PyVersion} (ext : List Nat)
    (he : a.epoch = b.epoch) (hr : b.release = a.release ++ ext) :
    vlt a b = ext.any (fun n => n != 0) := by
  have hirr : ¬ a.epoch < b.epoch := by omega
  have hirr2 : ¬ b.epoch < a.epoch := by omega
  simp only [vlt, if_neg hirr, if_neg hirr2]
  rw [hr, trimZeros_append]
  by_cases h : trimZeros ext = []
  · rw [if_pos h, lexLt_irrefl]
    cases hany : ext.any (fun n => n != 0)
    · rfl
    · exfalso
      rw [List.any_eq_true] at hany
      obtain ⟨x, hx, hx0⟩ := hany
      have := (trimZeros_eq_nil_iff ext).mp h x hx
      simp [this] at hx0
  · rw [if_neg h]
    obtain ⟨u, hu⟩ := exists_trimZeros_append a.release
    have hne : u ++ trimZeros ext ≠ [] := by
      intro hc
      exact h (List.append_eq_nil.mp hc).2
    have hl : lexLt (trimZeros a.release) (a.release ++ trimZeros ext) = true := by
      set t := trimZeros a.release with ht
      rw [hu, List.append_assoc]
      exact lexLt_append_right _ _ hne
    rw [hl]
    cases hany : ext.any (fun n => n != 0)
    · exfalso
      apply h
      rw [trimZeros_eq_nil_iff]
      intro x hx
      rw [List.any_eq_false] at hany
      have := hany x hx
      simpa using this
    · rfl

/-- C4 counterexample: `"1.2"` and `"1.2.0"` both parse, `[1, 2]` is a
proper prefix of `[1, 2, 0]`, yet neither version is strictly smaller —
trailing zero segments are insignificant in the comparison key, so the
shorter prefix is *not* strictly older. -/
theorem C4_prefix_order_counterexample :
    pyParse "1.2" = some ⟨0, [1, 2]⟩
    ∧ pyParse "1.2.0" = some ⟨0, [1, 2, 0]⟩
    ∧ ([1, 2, 0] : List Nat) = [1, 2] ++ [0]
    ∧ vlt ⟨0, [1, 2]⟩ ⟨0, [1, 2, 0]⟩ = false
    ∧ vlt ⟨0, [1, 2, 0]⟩ ⟨0, [1, 2]⟩ = false := by decide

/-- C4 (amended): for equal epochs the order is numeric lexicographic
comparison of the release tuples after dropping trailing zero segments;
for equal-length tuples this coincides with plain component-wise numeric
comparison (so `1.9.0 < 1.10.0`); when one release tuple extends the
other, the shorter is strictly older iff the extension contains a nonzero
segment (all-zero extensions compare equal). -/
theorem C4_version_order_amended :
    (∀ a b : PyVersion, a.epoch = b.epoch →
        vlt a b = lexLt (trimZeros a.release) (trimZeros b.release))
    ∧ (∀ a b : PyVersion, a.epoch = b.epoch →
        a.release.length = b.release.length → vlt a b = lexLt a.release b.release)
    ∧ (∀ a b : PyVersion, ∀ ext : List Nat, a.epoch = b.epoch →
        b.release = a.release ++ ext → vlt a b = ext.any (fun n => n != 0))
    ∧ vlt ⟨0, [1, 9, 0]⟩ ⟨0, [1, 10, 0]⟩ = true := by
  refine ⟨?_, ?_, ?_, by decide⟩
  · intro a b he
    have h1 : ¬ a.epoch < b.epoch := by omega
    have h2 : ¬ b.epoch < a.epoch := by omega
    simp [vlt, if_neg h1, if_neg h2]
  · intro a b he hlen
    have h1 : ¬ a.epoch < b.epoch := by omega
    have h2 : ¬ b.epoch < a.epoch := by omega
    simp only [vlt, if_neg h1, if_neg h2]
    exact lexLt_trimZeros_eq_len hlen
  · intro a b ext he hr
    exact vlt_prefix_iff ext he hr

/-- Witness for C4 (amended) at concrete versions. -/
theorem C4_version_order_amended_witness :
    vlt ⟨0, [1, 9]⟩ ⟨0, [1, 10]⟩ = lexLt [1, 9] [1, 10]
    ∧ vlt ⟨0, [1, 2]⟩ ⟨0, [1, 2, 0, 5]⟩ = ([0, 5] : List Nat).any (fun n => n != 0) :=
  ⟨C4_version_order_amended.2.1 ⟨0, [1, 9]⟩ ⟨0, [1, 10]⟩ rfl rfl,
   C4_version_order_amended.2.2.1 ⟨0, [1, 2]⟩ ⟨0, [1, 2, 0, 5]⟩ [0, 5] rfl rfl⟩

/-! ## Sort / group lemmas for the primary phase -/

theorem insertByKey_perm (a : String × PackageConfig) (l : Config) :
    List.Perm (insertByKey a l) (a :: l) := by
  induction l with
  | nil => rfl
  | cons b bs ih =>
    simp only [insertByKey]
    by_cases hba : strLt (pkey b) (pkey a)
    · simp only [hba, if_true]
      exact (ih.cons b).trans (List.Perm.swap a b bs)
    · simp [hba]

theorem sortByKey_perm (l : Config) : List.Perm (sortByKey l) l := by
  induction l with
  | nil => rfl
  | cons x xs ih =>
    have h : sortByKey (x :: xs) = insertByKey x (sortByKey xs) := rfl
    rw [h]
    exact (insertByKey_perm x (sortByKey xs)).trans (ih.cons x)

theorem mem_takeWhile_pred {α : Type} (p : α → Bool) :
    ∀ (l : List α) (x : α), x ∈ l.takeWhile p → p x = true := by
  intro l x h
  exact List.mem_takeWhile_imp h

/-- The groups of `pyGroupByF` flatten back to the input list. -/
theorem pyGroupByF_flatten :
    ∀ (fuel : Nat) (l : Config), l.length ≤ fuel →
      ((pyGroupByF fuel l).map (fun g => g.2)).flatten = l := by
  intro fuel
  induction fuel with
  | zero =>
    intro l hl
    cases l with
    | nil => rfl
    | cons a as => simp at hl
  | succ fuel ih =>
    intro l hl
    cases l with
    | nil => rfl
    | cons a as =>
      simp only [pyGroupByF, List.map_cons, List.flatten_cons]
      have hsub : (as.dropWhile (fun x => pkey x == pkey a)).length ≤ fuel := by
        have := (List.dropWhile_sublist (l := as)
          (p := fun x => pkey x == pkey a)).length_le
        simp only [List.length_cons] at hl
        omega
      rw [ih _ hsub]
      simp only [List.cons_append, List.cons.injEq, true_and]
      exact List.takeWhile_append_dropWhile _ _

/-- Every member of a group has the group's key. -/
theorem pyGroupByF_key :
    ∀ (fuel : Nat) (l : Config) (k : String) (g : Config),
      (k, g) ∈ pyGroupByF fuel l → ∀ x ∈ g, pkey x = k := by
  intro fuel
  induction fuel with
  | zero =>
    intro l k g h
    cases l with
    | nil => simp [pyGroupByF] at h
    | cons a as => simp [pyGroupByF] at h
  | succ fuel ih =>
    intro l k g h
    cases l with
    | nil => simp [pyGroupByF] at h
    | cons a as =>
      simp only [pyGroupByF, List.mem_cons] at h
      rcases h with h | h
      · obtain ⟨hk, hg⟩ := Prod.mk.injEq .. ▸ h
        intro x hx
        rw [hg] at hx
        rcases List.mem_cons.mp hx with rfl | hxs
        · exact hk.symm
        · have := mem_takeWhile_pred _ _ _ hxs
          have heq : pkey x = pkey a := by simpa using this
          rw [heq]
          exact hk.symm
      · exact ih _ k g h

/-- Every group key is the key of some member of the input list. -/
theorem pyGroupByF_mem_exists :
    ∀ (fuel : Nat) (l : Config) (k : String) (g : Config),
      (k, g) ∈ pyGroupByF fuel l → ∃ x ∈ l, pkey x = k := by
  intro fuel
  induction fuel with
  | zero =>
    intro l k g h
    cases l with
    | nil => simp [pyGroupByF] at h
    | cons a as => simp [pyGroupByF] at h
  | succ fuel ih =>
    intro l k g h
    cases l with
    | nil => simp [pyGroupByF] at h
    | cons a as =>
      simp only [pyGroupByF, List.mem_cons] at h
      rcases h with h | h
      · obtain ⟨hk, _⟩ := Prod.mk.injEq .. ▸ h
        exact ⟨a, List.mem_cons_self a as, hk.symm⟩
      · obtain ⟨x, hx, hk⟩ := ih _ k g h
        exact ⟨x, List.mem_cons_of_mem a (List.dropWhile_subset _ hx), hk⟩

/-- Two pairs of a key-nodup association list with the same key are equal. -/
theorem pairs_eq_of_nodup_keys :
    ∀ (c : Config), (c.map (fun kv => kv.1)).Nodup →
      ∀ (n : String) (p1 p2 : PackageConfig), (n, p1) ∈ c → (n, p2) ∈ c → p1 = p2 := by
  intro c
  induction c with
  | nil => intro _ n p1 p2 h; simp at h
  | cons a as ih =>
    intro hnd n p1 p2 h1 h2
    simp only [List.map_cons, List.nodup_cons] at hnd
    obtain ⟨hna, hnd⟩ := hnd
    rcases List.mem_cons.mp h1 with rfl | h1' <;> rcases List.mem_cons.mp h2 with h2' | h2'
    · exact (Prod.mk.injEq .. ▸ h2').2.symm
    · exfalso
      exact hna (List.mem_map.mpr ⟨(n, p2), h2', rfl⟩)
    · obtain ⟨hn, hp⟩ := Prod.mk.injEq .. ▸ h2'.symm
      exfalso
      exact hna (List.mem_map.mpr ⟨(n, p1), h1', hn ▸ rfl⟩)
    · exact ih hnd n p1 p2 h1' h2'

/-- A package with a `primary` field has `primary = some (pkey ·)`. -/
theorem primary_eq_pkey {kv : String × PackageConfig} (h : kv.2.primary.isSome) :
    kv.2.primary = some (pkey kv) := by
  cases hp : kv.2.primary with
  | none => rw [hp] at h; simp at h
  | some s => simp [pkey, hp]

/-- With no failing invocation and every group key registered, the primary
loop completes and records one event per group. -/
theorem get_primary_loop_events_ok (f : String → Config → RMap) :
    ∀ (gs : List (String × Config)) (vers : RMap) (asked : List String),
      (∀ g ∈ gs, sourcesRegistry.contains g.1 = true) →
      (get_primary_loop (okFetch f) gs vers asked).1
          = gs.map (fun g => (g.1, g.2.map (fun kv => kv.1)))
        ∧ exIsOk (get_primary_loop (okFetch f) gs vers asked).2 = true := by
  intro gs
  induction gs with
  | nil => intro vers asked _; exact ⟨rfl, rfl⟩
  | cons g gs ih =>
    intro vers asked hreg
    obtain ⟨k, gc⟩ := g
    have hk : sourcesRegistry.contains k = true := hreg (k, gc) (List.mem_cons_self _ _)
    have hrest : ∀ g ∈ gs, sourcesRegistry.contains g.1 = true := fun g hg =>
      hreg g (List.mem_cons_of_mem _ hg)
    obtain ⟨ih1, ih2⟩ := ih (update vers (f k gc)) (k :: asked) hrest
    simp only [get_primary_loop, hk, if_true, okFetch]
    exact ⟨by rw [List.map_cons, ih1], ih2⟩

/-- If some group key is unregistered, the primary loop raises. -/
theorem get_primary_loop_err (f : String → Config → RMap) :
    ∀ (gs : List (String × Config)) (vers : RMap) (asked : List String),
      (∃ g ∈ gs, sourcesRegistry.contains g.1 = false) →
      exIsOk (get_primary_loop (okFetch f) gs vers asked).2 = false := by
  intro gs
  induction gs with
  | nil => intro vers asked h; simp at h
  | cons g gs ih =>
    intro vers asked h
    obtain ⟨k, gc⟩ := g
    by_cases hk : sourcesRegistry.contains k = true
    · have htail : ∃ g ∈ gs, sourcesRegistry.contains g.1 = false := by
        rcases h with ⟨g', hg', hfalse⟩
        rcases List.mem_cons.mp hg' with rfl | hg''
        · rw [hk] at hfalse
          exact absurd hfalse (by simp)
        · exact ⟨g', hg'', hfalse⟩
      simp only [get_primary_loop, hk, if_true, okFetch]
      exact ih (update vers (f k gc)) (k :: asked) htail
    · simp only [get_primary_loop]
      rw [if_neg hk]
      rfl

theorem primaryGroups_flatten (c : Config) :
    ((primaryGroups c).map (fun g => g.2)).flatten
      = sortByKey (c.filter (fun kv => kv.2.primary.isSome)) :=
  pyGroupByF_flatten _ _ (Nat.le_refl _)

/-- Any member of any primary group is a filtered element of `c` and has
the group's key. -/
theorem primaryGroups_mem {c : Config} {k : String} {g : Config}
    (hg : (k, g) ∈ primaryGroups c) :
    ∀ x ∈ g, x ∈ c ∧ x.2.primary.isSome ∧ pkey x = k := by
  intro x hx
  have hkey := pyGroupByF_key _ _ k g hg x hx
  have hxin : x ∈ ((primaryGroups c).map (fun g => g.2)).flatten :=
    List.mem_flatten.mpr ⟨g, List.mem_map.mpr ⟨(k, g), hg, rfl⟩, hx⟩
  rw [primaryGroups_flatten] at hxin
  have hxf : x ∈ c.filter (fun kv => kv.2.primary.isSome) :=
    (sortByKey_perm _).mem_iff.mp hxin
  have := List.mem_filter.mp hxf
  exact ⟨this.1, this.2, hkey⟩

/-- Any group key is the `primary` of some configured package. -/
theorem primaryGroups_key_exists {c : Config} {k : String} {g : Config}
    (hg : (k, g) ∈ primaryGroups c) :
    ∃ kv ∈ c, kv.2.primary = some k := by
  obtain ⟨x, hx, hkey⟩ := pyGroupByF_mem_exists _ _ k g hg
  have hxf : x ∈ c.filter (fun kv => kv.2.primary.isSome) :=
    (sortByKey_perm _).mem_iff.mp hx
  obtain ⟨hxc, hxs⟩ := List.mem_filter.mp hxf
  exact ⟨x, hxc, by rw [primary_eq_pkey hxs, hkey]⟩

/-- In a key-nodup config, two members with the same name have the same
record. -/
theorem mem_config_same_name {c : Config} (hnd : (c.map (fun kv => kv.1)).Nodup)
    {kv x : String × PackageConfig} (hkv : kv ∈ c) (hx : x ∈ c) (hn : x.1 = kv.1) :
    x.2 = kv.2 := by
  have hx' : (kv.1, x.2) ∈ c := by
    obtain ⟨x1, x2⟩ := x
    simp only at hn
    rw [← hn]
    exact hx
  exact pairs_eq_of_nodup_keys c hnd kv.1 x.2 kv.2 hx' hkv

/-- All group keys are registered when every configured primary source is. -/
theorem primaryGroups_registered {c : Config}
    (hreg : ∀ kv ∈ c, ∀ s, kv.2.primary = some s → sourcesRegistry.contains s = true) :
    ∀ g ∈ primaryGroups c, sourcesRegistry.contains g.1 = true := by
  intro g hg
  obtain ⟨k, gc⟩ := g
  obtain ⟨kv, hkv, hp⟩ := primaryGroups_key_exists hg
  exact hreg kv hkv k hp

theorem primaryQueried_eq (f : String → Config → RMap) (c : Config)
    (hreg : ∀ kv ∈ c, ∀ s, kv.2.primary = some s → sourcesRegistry.contains s = true) :
    primaryQueried f c
      = (sortByKey (c.filter (fun kv => kv.2.primary.isSome))).map (fun kv => kv.1) := by
  have hgroups := primaryGroups_registered hreg
  have hev := (get_primary_loop_events_ok f (primaryGroups c) emptyMap [] hgroups).1
  have hgp : (get_primary (okFetch f) c emptyMap).1
      = (primaryGroups c).map (fun g => (g.1, g.2.map (fun kv => kv.1))) := hev
  unfold primaryQueried
  rw [hgp, List.map_map]
  have h1 : ((primaryGroups c).map
        ((fun e : Event => e.2) ∘ (fun g : String × Config => (g.1, g.2.map (fun kv => kv.1)))))
      = ((primaryGroups c).map (fun g => g.2)).map (List.map (fun kv => kv.1)) := by
    rw [List.map_map]
    rfl
  rw [h1, ← List.map_flatten, primaryGroups_flatten]

/-- C5: when the primary phase runs with every declared primary source
registered and no invocation failing, each package with a `primary` field
appears in exactly one queried batch, exactly once, and every batch that
contains it is dispatched to the provider registered under that package's
primary source name; a package without a `primary` field is never queried
in the primary phase. -/
theorem C5_primary_partition (f : String → Config → RMap) (c : Config)
    (hnd : (c.map (fun kv => kv.1)).Nodup)
    (hreg : ∀ kv ∈ c, ∀ s, kv.2.primary = some s → sourcesRegistry.contains s = true) :
    (∀ kv ∈ c, ∀ s, kv.2.primary = some s →
        (primaryQueried f c).count kv.1 = 1
        ∧ ∀ e ∈ (get_primary (okFetch f) c emptyMap).1, kv.1 ∈ e.2 → e.1 = s)
    ∧ (∀ kv ∈ c, kv.2.primary = none → kv.1 ∉ primaryQueried f c) := by
  have hgroups := primaryGroups_registered hreg
  have hgp : (get_primary (okFetch f) c emptyMap).1
      = (primaryGroups c).map (fun g => (g.1, g.2.map (fun kv => kv.1))) :=
    (get_primary_loop_events_ok f (primaryGroups c) emptyMap [] hgroups).1
  have hperm : List.Perm (primaryQueried f c)
      ((c.filter (fun kv => kv.2.primary.isSome)).map (fun kv => kv.1)) := by
    rw [primaryQueried_eq f c hreg]
    exact (sortByKey_perm _).map _
  have hfl_nodup : ((c.filter (fun kv => kv.2.primary.isSome)).map
      (fun kv => kv.1)).Nodup :=
    hnd.sublist ((List.filter_sublist _).map _)
  refine ⟨?_, ?_⟩
  · intro kv hkv s hs
    refine ⟨?_, ?_⟩
    · rw [hperm.count_eq]
      exact List.count_eq_one_of_mem hfl_nodup
        (List.mem_map.mpr ⟨kv, List.mem_filter.mpr ⟨hkv, by simp [hs]⟩, rfl⟩)
    · intro e he hname
      rw [hgp] at he
      obtain ⟨g, hg, hge⟩ := List.mem_map.mp he
      obtain ⟨k, gc⟩ := g
      rw [← hge] at hname ⊢
      simp only at hname ⊢
      obtain ⟨x, hx, hxn⟩ := List.mem_map.mp hname
      obtain ⟨hxc, _, hxkey⟩ := primaryGroups_mem hg x hx
      have hx2 : x.2 = kv.2 := mem_config_same_name hnd hkv hxc hxn
      have h1 : pkey x = pkey kv := by
        unfold pkey
        rw [hx2]
      have h2 : pkey kv = s := by simp [pkey, hs]
      rw [← hxkey, h1, h2]
  · intro kv hkv hnone hmem
    obtain ⟨x, hxf, hxn⟩ := List.mem_map.mp (hperm.mem_iff.mp hmem)
    obtain ⟨hxc, hxs⟩ := List.mem_filter.mp hxf
    have hx2 : x.2 = kv.2 := mem_config_same_name hnd hkv hxc hxn
    rw [hx2, hnone] at hxs
    simp at hxs

/-- Witness for C5 at a concrete configuration. -/
theorem C5_primary_partition_witness :
    (primaryQueried (fun _ _ => emptyMap) cW5).count "a" = 1
    ∧ "b" ∉ primaryQueried (fun _ _ => emptyMap) cW5 := by
  have hreg : ∀ kv ∈ cW5, ∀ s, kv.2.primary = some s →
      sourcesRegistry.contains s = true := by
    have hd : ∀ kv ∈ cW5, kv.2.primary.isSome = true →
        sourcesRegistry.contains (pkey kv) = true := by decide
    intro kv hkv s hs
    have hpk : pkey kv = s := by simp [pkey, hs]
    rw [← hpk]
    exact hd kv hkv (by simp [hs])
  exact ⟨((C5_primary_partition (fun _ _ => emptyMap) cW5 (by decide) hreg).1
      ("a", pkgPrim "github") (by decide) "github" rfl).1,
    (C5_primary_partition (fun _ _ => emptyMap) cW5 (by decide) hreg).2
      ("b", {}) (by decide) rfl⟩

/-! ## C6: configuration errors -/

theorem findUnknown_none_iff (keys : List String) (l : List (String × JVal)) :
    findUnknown keys l = none ↔ ∀ kv ∈ l, keys.contains kv.1 = true := by
  induction l with
  | nil => simp [findUnknown]
  | cons a rest ih =>
    obtain ⟨k, v⟩ := a
    simp only [findUnknown]
    by_cases ha : keys.contains k = true
    · rw [if_pos ha, ih]
      constructor
      · intro h kv hkv
        rcases List.mem_cons.mp hkv with rfl | hkv'
        · exact ha
        · exact h kv hkv'
      · intro h kv hkv
        exact h kv (List.mem_cons_of_mem _ hkv)
    · rw [if_neg ha]
      constructor
      · intro h
        exact absurd h (by simp)
      · intro h
        exact absurd (h (k, v) (List.mem_cons_self _ _)) ha

theorem findUnknown_some (keys : List String) :
    ∀ (l : List (String × JVal)) (k : String), findUnknown keys l = some k →
      ∃ kv ∈ l, keys.contains kv.1 = false := by
  intro l
  induction l with
  | nil => intro k h; simp [findUnknown] at h
  | cons a rest ih =>
    intro k h
    obtain ⟨k', v⟩ := a
    simp only [findUnknown] at h
    by_cases ha : keys.contains k' = true
    · rw [if_pos ha] at h
      obtain ⟨kv, hkv, hf⟩ := ih k h
      exact ⟨kv, List.mem_cons_of_mem _ hkv, hf⟩
    · refine ⟨(k', v), List.mem_cons_self _ _, ?_⟩
      cases hv : keys.contains k'
      · rfl
      · exact absurd hv ha

/-- C6 counterexample: config `cfg6` declares primaries `arch`
(registered) and `zzz` (unregistered).  The run does abort with a
`KeyError`, but only after the `arch` group has already been queried — the
error is not surfaced before network activity. -/
theorem C6_config_error_counterexample :
    (get_primary fetchEmptyF cfg6 emptyMap).1 = [("arch", ["a"])]
    ∧ exErrMsg (get_primary fetchEmptyF cfg6 emptyMap).2 = some "KeyError: zzz" := by
  decide

/-- C6 (amended): an unrecognised option name makes `read_config` raise a
`KeyError` (before any provider can be invoked — `read_config` performs no
fetch); a package whose `primary` source is unregistered makes the primary
phase raise a `KeyError` and abort, but only when its group is dispatched,
so providers for groups sorted earlier may already have been queried. -/
theorem C6_config_errors_amended :
    (∀ (args config : List (String × JVal)),
        exIsOk (read_config args config) = false ↔
          ∃ kv ∈ config, (args.map (fun x => x.1)).contains kv.1 = false)
    ∧ (∀ (f : String → Config → RMap) (c : Config),
        (∀ kv ∈ c, ∀ s, kv.2.primary = some s → sourcesRegistry.contains s = true) →
        exIsOk (get_primary (okFetch f) c emptyMap).2 = true)
    ∧ (∀ (f : String → Config → RMap) (c : Config) (kv : String × PackageConfig)
        (s : String), kv ∈ c → kv.2.primary = some s →
        sourcesRegistry.contains s = false →
        exIsOk (get_primary (okFetch f) c emptyMap).2 = false) := by
  refine ⟨?_, ?_, ?_⟩
  · intro args config
    unfold read_config
    cases hf : findUnknown (args.map (fun kv => kv.1)) config with
    | none =>
      simp only [exIsOk]
      constructor
      · intro h
        exact absurd h (by simp)
      · intro h
        obtain ⟨kv, hkv, hfalse⟩ := h
        have := (findUnknown_none_iff _ config).mp hf kv hkv
        rw [this] at hfalse
        exact absurd hfalse (by simp)
    | some k =>
      simp only [exIsOk]
      constructor
      · intro _
        exact findUnknown_some _ config k hf
      · intro _
        trivial
  · intro f c hreg
    exact (get_primary_loop_events_ok f (primaryGroups c) emptyMap []
      (primaryGroups_registered hreg)).2
  · intro f c kv s hkv hs hsf
    have hkvf : kv ∈ c.filter (fun x => x.2.primary.isSome) :=
      List.mem_filter.mpr ⟨hkv, by simp [hs]⟩
    have hkvs : kv ∈ sortByKey (c.filter (fun x => x.2.primary.isSome)) :=
      (sortByKey_perm _).mem_iff.mpr hkvf
    have hmem : kv ∈ ((primaryGroups c).map (fun g => g.2)).flatten := by
      rw [primaryGroups_flatten]
      exact hkvs
    obtain ⟨gl, hgl, hkvg⟩ := List.mem_flatten.mp hmem
    obtain ⟨g, hg, hgeq⟩ := List.mem_map.mp hgl
    obtain ⟨k, gc⟩ := g
    simp only at hgeq
    rw [hgeq] at hg
    have hkey : pkey kv = k := pyGroupByF_key _ _ k gl hg kv hkvg
    have hpk : pkey kv = s := by simp [pkey, hs]
    apply get_primary_loop_err
    refine ⟨(k, gl), hg, ?_⟩
    show sourcesRegistry.contains k = false
    rw [hkey.symm.trans hpk]
    exact hsf

/-- Witness for C6 (amended): a concrete unknown option and a concrete
unregistered primary source. -/
theorem C6_config_errors_amended_witness :
    exIsOk (read_config [("quiet", JVal.vNone)] [("bogus_option", JVal.vBool true)]) = false
    ∧ exIsOk (get_primary fetchEmptyF cfg6 emptyMap).2 = false :=
  ⟨(C6_config_errors_amended.1 [("quiet", JVal.vNone)]
      [("bogus_option", JVal.vBool true)]).mpr
      ⟨("bogus_option", JVal.vBool true), by decide, by decide⟩,
   C6_config_errors_amended.2.2 (fun _ _ => emptyMap) cfg6 ("z", pkgPrim "zzz") "zzz"
      (by decide) rfl (by decide)⟩

/-! ## C7: provider invocation failure -/

theorem update_emptyMap (m : RMap) : update m emptyMap = m := rfl

/-- C7 counterexample: with a fetcher whose invocation fails as a whole,
`get_secondary_source` (and the whole run via `get_vers`) returns the
error — the run aborts — whereas an invocation that actually returns an
empty result continues with the resolution map and LeftSet unchanged.  The
failure is therefore *not* treated as an empty `SourceBatchResult`. -/
theorem C7_failure_aborts_counterexample :
    exErrMsg (get_secondary_source fetchFail false cfg7 "github" emptyMap cfg7).2
      = some "ConnectionError"
    ∧ ((get_secondary_source fetchEmptyF false cfg7 "github" emptyMap cfg7).2.toOption.map
        (fun pr => (pr.1 "p", pr.2.map (fun kv => kv.1)))) = some (none, ["p"])
    ∧ exErrMsg (get_vers fetchFail ⟨false, true, true, true⟩ cfg7).2
      = some "ConnectionError" := by
  decide

/-- C7 (amended): a whole-call provider failure propagates as an exception
through `get_secondary_source` and the pass loop (aborting the run); only
an invocation that returns an empty dict is a no-op that lets the run
continue. -/
theorem C7_provider_failure_amended :
    (∀ (fetch : Fetcher) (ts : Bool) (c : Config) (s : String) (vers : RMap)
        (left : Config) (e : String), fetch s left = .error e →
        (get_secondary_source fetch ts c s vers left).2 = .error e)
    ∧ (∀ (fetch : Fetcher) (ts : Bool) (c : Config) (s : String)
        (rest : List String) (vers : RMap) (left : Config) (e : String),
        (get_secondary_source fetch ts c s vers left).2 = .error e →
        (run_secondary_loop fetch ts c (s :: rest) vers left).2 = .error e)
    ∧ (∀ (fetch : Fetcher) (c : Config) (s : String) (vers : RMap) (left : Config),
        fetch s left = .ok emptyMap →
        (get_secondary_source fetch false c s vers left).2 = .ok (vers, left)) := by
  refine ⟨?_, ?_, ?_⟩
  · intro fetch ts c s vers left e h
    simp [get_secondary_source, h]
  · intro fetch ts c s rest vers left e h
    simp only [run_secondary_loop]
    rw [h]
  · intro fetch c s vers left h
    simp [get_secondary_source, h, update_emptyMap]

/-- Witness for C7 (amended) at concrete runs. -/
theorem C7_provider_failure_amended_witness :
    (get_secondary_source fetchFail true cfg7 "aur" emptyMap cfg7).2
      = .error "ConnectionError"
    ∧ (run_secondary_loop fetchFail true cfg7 ["gitlab", "aur"] emptyMap cfg7).2
      = .error "ConnectionError"
    ∧ (get_secondary_source fetchEmptyF false cfg7 "aur" emptyMap cfg7).2
      = .ok (emptyMap, cfg7) :=
  ⟨C7_provider_failure_amended.1 fetchFail true cfg7 "aur" emptyMap cfg7
      "ConnectionError" rfl,
   C7_provider_failure_amended.2.1 fetchFail true cfg7 "gitlab" ["aur"] emptyMap cfg7
      "ConnectionError"
      (C7_provider_failure_amended.1 fetchFail true cfg7 "gitlab" emptyMap cfg7
        "ConnectionError" rfl),
   C7_provider_failure_amended.2.2 fetchEmptyF cfg7 "aur" emptyMap cfg7 rfl⟩

/-! ## C8: trust_secondary semantics within a pass -/

theorem get_secondary_source_ok_inv {fetch : Fetcher} {ts : Bool} {c : Config}
    {s : String} {vers : RMap} {left : Config} {vers' : RMap} {left' : Config}
    (h : (get_secondary_source fetch ts c s vers left).2 = .ok (vers', left')) :
    left' = if ts then c.filter (fun kv => (vers' kv.1).isNone) else left := by
  unfold get_secondary_source at h
  cases hf : fetch s left with
  | error e =>
    rw [hf] at h
    simp at h
  | ok new =>
    rw [hf] at h
    simp only [Except.ok.injEq, Prod.mk.injEq] at h
    obtain ⟨h1, h2⟩ := h
    rw [← h2, ← h1]

/-- C8: with `trust_secondary` set, after each provider merge the LeftSet
is recomputed as exactly the configured packages absent from the
resolution map, and the pass stops as soon as it is empty; with
`trust_secondary` unset, every provider of the pass is invoked with the
full original LeftSet, which is returned unchanged. -/
theorem C8_trust_secondary :
    (∀ (fetch : Fetcher) (c : Config) (s : String) (vers : RMap) (left : Config)
        (vers' : RMap) (left' : Config),
        (get_secondary_source fetch true c s vers left).2 = .ok (vers', left') →
        left' = c.filter (fun kv => (vers' kv.1).isNone))
    ∧ (∀ (fetch : Fetcher) (c : Config) (s : String) (rest : List String)
        (vers : RMap) (left : Config) (vers' : RMap),
        (get_secondary_source fetch true c s vers left).2 = .ok (vers', []) →
        run_secondary_loop fetch true c (s :: rest) vers left
          = ([(s, left.map (fun kv => kv.1))], .ok (vers', [])))
    ∧ (∀ (f : String → Config → RMap) (c : Config) (srcs : List String)
        (vers : RMap) (left : Config), left ≠ [] →
        (run_secondary_loop (okFetch f) false c srcs vers left).1
            = srcs.map (fun s => (s, left.map (fun kv => kv.1)))
        ∧ ∃ vf, (run_secondary_loop (okFetch f) false c srcs vers left).2
            = .ok (vf, left)) := by
  refine ⟨?_, ?_, ?_⟩
  · intro fetch c s vers left vers' left' h
    have := get_secondary_source_ok_inv h
    simpa using this
  · intro fetch c s rest vers left vers' h
    simp only [run_secondary_loop]
    rw [h]
    rfl
  · intro f c srcs vers left hne
    have hemp : left.isEmpty = false := by
      cases left with
      | nil => exact absurd rfl hne
      | cons a as => rfl
    induction srcs generalizing vers with
    | nil => exact ⟨rfl, vers, rfl⟩
    | cons s rest ih =>
      have hst : (get_secondary_source (okFetch f) false c s vers left).2
          = .ok (update vers (f s left), left) := rfl
      obtain ⟨ih1, vf, ih2⟩ := ih (update vers (f s left))
      constructor
      · simp only [run_secondary_loop]
        rw [hst]
        simp only [hemp, Bool.false_eq_true, if_false, List.map_cons]
        rw [ih1]
        rfl
      · refine ⟨vf, ?_⟩
        simp only [run_secondary_loop]
        rw [hst]
        simp only [hemp, Bool.false_eq_true, if_false]
        exact ih2

/-- Witness for C8 at concrete runs: a trusted pass stopping early, and an
untrusted pass querying both providers with the original LeftSet. -/
theorem C8_trust_secondary_witness :
    run_secondary_loop (okFetch f7full) true cfg7 ["github", "gitlab"] emptyMap cfg7
      = ([("github", ["p"])], .ok (update emptyMap (f7full "github" cfg7), []))
    ∧ (run_secondary_loop fetchEmptyF false cfg7 ["github", "gitlab"] emptyMap cfg7).1
      = (["github", "gitlab"] : List String).map (fun s => (s, cfg7.map (fun kv => kv.1))) :=
  ⟨C8_trust_secondary.2.1 (okFetch f7full) cfg7 "github" ["gitlab"] emptyMap cfg7
      (update emptyMap (f7full "github" cfg7)) rfl,
   (C8_trust_secondary.2.2 (fun _ _ => emptyMap) cfg7 ["github", "gitlab"] emptyMap cfg7
      (by decide)).1⟩

/-! ## C9: LeftSet / ResolutionMap complementarity -/

theorem run_secondary_loop_trust_inv (fetch : Fetcher) (c : Config) :
    ∀ (srcs : List String) (vers : RMap) (left : Config) (vers' : RMap) (left' : Config),
      left = c.filter (fun kv => (vers kv.1).isNone) →
      (run_secondary_loop fetch true c srcs vers left).2 = .ok (vers', left') →
      left' = c.filter (fun kv => (vers' kv.1).isNone) := by
  intro srcs
  induction srcs with
  | nil =>
    intro vers left vers' left' hin h
    simp only [run_secondary_loop, Except.ok.injEq, Prod.mk.injEq] at h
    obtain ⟨h1, h2⟩ := h
    rw [← h2, ← h1]
    exact hin
  | cons s rest ih =>
    intro vers left vers' left' hin h
    simp only [run_secondary_loop] at h
    split at h
    · simp at h
    · rename_i v2 l2 heq
      have hl2 : l2 = c.filter (fun kv => (v2 kv.1).isNone) := by
        simpa using get_secondary_source_ok_inv heq
      split at h
      · simp only [Except.ok.injEq, Prod.mk.injEq] at h
        obtain ⟨h1, h2⟩ := h
        rw [← h2, ← h1]
        exact hl2
      · exact ih v2 l2 vers' left' hl2 (by simpa using h)

theorem run_secondary_trust_inv (fetch : Fetcher) (c : Config) (vers : RMap)
    (asked : List String) (left : Config) (l : String → List String → Bool)
    (vers' : RMap) (left' : Config)
    (hin : left = c.filter (fun kv => (vers kv.1).isNone))
    (h : (run_secondary fetch true c vers asked left l).2 = .ok (vers', left')) :
    left' = c.filter (fun kv => (vers' kv.1).isNone) := by
  unfold run_secondary at h
  by_cases he : left.isEmpty
  · rw [if_pos he] at h
    simp only [Except.ok.injEq, Prod.mk.injEq] at h
    obtain ⟨h1, h2⟩ := h
    rw [← h2, ← h1]
    exact hin
  · rw [if_neg he] at h
    exact run_secondary_loop_trust_inv fetch c _ vers left vers' left' hin h

theorem get_secondary_trust_inv (fetch : Fetcher) (c : Config) (vers : RMap)
    (asked : List String) (left : Config) (vers' : RMap) (left' : Config)
    (hin : left = c.filter (fun kv => (vers kv.1).isNone))
    (h : (get_secondary fetch true c vers asked left).2 = .ok (vers', left')) :
    left' = c.filter (fun kv => (vers' kv.1).isNone) := by
  simp only [get_secondary] at h
  split at h
  · simp at h
  · rename_i v1 l1 heq
    have h1 : l1 = c.filter (fun kv => (v1 kv.1).isNone) :=
      run_secondary_trust_inv fetch c vers asked left _ v1 l1 hin heq
    exact run_secondary_trust_inv fetch c v1 asked l1 _ vers' left' h1
      (by simpa using h)

theorem get_vers_trust_inv (fetch : Fetcher) (args : Args) (c : Config)
    (vers : RMap) (left : Config)
    (htp : args.trust_primary = true) (hts : args.trust_secondary = true)
    (h : (get_vers fetch args c).2 = .ok (vers, left)) :
    left = c.filter (fun kv => (vers kv.1).isNone) := by
  simp only [get_vers, htp, hts, if_true] at h
  split at h
  · simp at h
  · rename_i v0 asked heq
    split at h
    · exact get_secondary_trust_inv fetch c v0 asked _ vers left rfl
        (by simpa using h)
    · simp only [Except.ok.injEq, Prod.mk.injEq] at h
      obtain ⟨h1, h2⟩ := h
      rw [← h2, ← h1]

/-- C9 counterexample: with `trust_primary` unset (a setting the claim
explicitly quantifies over), after the primary phase resolves `p1` the
LeftSet is re-seeded with the whole configuration, so the final state has
`p1` both resolved in the map and present in the LeftSet — the two are
not complementary. -/
theorem C9_complementarity_counterexample :
    args9.trust_primary = false
    ∧ ((get_vers (okFetch f9) args9 cfg9).2.toOption.map
        (fun pr => (pr.1 "p1", pr.2.map (fun kv => kv.1)))) = some (some v10, ["p1"]) := by
  decide

/-- C9 (amended): complementarity of LeftSet and the resolution map over
the configured packages holds at the observation points produced when the
trust flags are set: after every trusted secondary merge, and for the
final state of a run with both `trust_primary` and `trust_secondary`
set. -/
theorem C9_left_complement_amended :
    (∀ (fetch : Fetcher) (c : Config) (s : String) (vers : RMap) (left : Config)
        (vers' : RMap) (left' : Config),
        (get_secondary_source fetch true c s vers left).2 = .ok (vers', left') →
        ∀ kv ∈ c, (kv ∈ left' ↔ vers' kv.1 = none))
    ∧ (∀ (fetch : Fetcher) (args : Args) (c : Config) (vers : RMap) (left : Config),
        args.trust_primary = true → args.trust_secondary = true →
        (get_vers fetch args c).2 = .ok (vers, left) →
        ∀ kv ∈ c, (kv ∈ left ↔ vers kv.1 = none)) := by
  have hmemfilter : ∀ (c : Config) (m : RMap), ∀ kv ∈ c,
      (kv ∈ c.filter (fun kv => (m kv.1).isNone) ↔ m kv.1 = none) := by
    intro c m kv hkv
    rw [List.mem_filter]
    simp [hkv, Option.isNone_iff_eq_none]
  refine ⟨?_, ?_⟩
  · intro fetch c s vers left vers' left' h kv hkv
    have hl : left' = c.filter (fun kv => (vers' kv.1).isNone) := by
      simpa using get_secondary_source_ok_inv h
    rw [hl]
    exact hmemfilter c vers' kv hkv
  · intro fetch args c vers left htp hts h kv hkv
    rw [get_vers_trust_inv fetch args c vers left htp hts h]
    exact hmemfilter c vers kv hkv

/-- Witness for C9 (amended): a complete run with both trust flags set,
observed for the single configured package. -/
theorem C9_left_complement_amended_witness :
    (("p1", pkgPrim "github") ∈ ([] : Config))
      ↔ update emptyMap (f9 "github" [("p1", pkgPrim "github")]) "p1" = none :=
  C9_left_complement_amended.2 (okFetch f9) ⟨true, true, true, true⟩ cfg9
    (update emptyMap (f9 "github" [("p1", pkgPrim "github")])) [] rfl rfl rfl
    ("p1", pkgPrim "github") (by decide)

/-! ## C10: the secondary cascade's static provider list -/

theorem run_secondary_loop_events_sources (fetch : Fetcher) (ts : Bool) (c : Config) :
    ∀ (srcs : List String) (vers : RMap) (left : Config) (e : Event),
      e ∈ (run_secondary_loop fetch ts c srcs vers left).1 → e.1 ∈ srcs := by
  intro srcs
  induction srcs with
  | nil =>
    intro vers left e h
    simp [run_secondary_loop] at h
  | cons s rest ih =>
    intro vers left e h
    have hst1 : (get_secondary_source fetch ts c s vers left).1
        = [(s, left.map (fun kv => kv.1))] := rfl
    simp only [run_secondary_loop] at h
    split at h
    · simp only [hst1, List.mem_singleton] at h
      subst h
      exact List.mem_cons_self _ _
    · rename_i v2 l2 heq
      split at h
      · simp only [hst1, List.mem_singleton] at h
        subst h
        exact List.mem_cons_self _ _
      · simp only [hst1] at h
        have h' : e ∈ ([(s, left.map (fun kv => kv.1))] : List Event)
            ++ (run_secondary_loop fetch ts c rest v2 l2).1 := by simpa using h
        rcases List.mem_append.mp h' with h'' | h''
        · rcases List.mem_cons.mp h'' with rfl | h3
          · exact List.mem_cons_self _ _
          · simp at h3
        · exact List.mem_cons_of_mem _ (ih v2 l2 e h'')

theorem run_secondary_events_sources (fetch : Fetcher) (ts : Bool) (c : Config)
    (vers : RMap) (asked : List String) (left : Config)
    (l : String → List String → Bool) (e : Event)
    (h : e ∈ (run_secondary fetch ts c vers asked left l).1) : e.1 ∈ sources_list := by
  unfold run_secondary at h
  by_cases he : left.isEmpty
  · rw [if_pos he] at h
    simp at h
  · rw [if_neg he] at h
    exact List.mem_of_mem_filter
      (run_secondary_loop_events_sources fetch ts c _ vers left e h)

theorem get_secondary_events_sources (fetch : Fetcher) (ts : Bool) (c : Config)
    (vers : RMap) (asked : List String) (left : Config) (e : Event)
    (h : e ∈ (get_secondary fetch ts c vers asked left).1) : e.1 ∈ sources_list := by
  simp only [get_secondary] at h
  split at h
  · exact run_secondary_events_sources fetch ts c vers asked left _ e (by simpa using h)
  · rename_i v1 l1 heq
    have h' : e ∈ (run_secondary fetch ts c vers asked left
          (fun name asked2 => !(asked2.contains name))).1
        ++ (run_secondary fetch ts c v1 asked l1
          (fun name asked2 => asked2.contains name)).1 := by simpa using h
    rcases List.mem_append.mp h' with h'' | h''
    · exact run_secondary_events_sources fetch ts c vers asked left _ e h''
    · exact run_secondary_events_sources fetch ts c v1 asked l1 _ e h''

theorem get_primary_loop_events_key (fetch : Fetcher) :
    ∀ (gs : List (String × Config)) (vers : RMap) (asked : List String) (e : Event),
      e ∈ (get_primary_loop fetch gs vers asked).1 → ∃ g ∈ gs, e.1 = g.1 := by
  intro gs
  induction gs with
  | nil =>
    intro vers asked e h
    simp [get_primary_loop] at h
  | cons g gs ih =>
    intro vers asked e h
    obtain ⟨k, gc⟩ := g
    by_cases hk : sourcesRegistry.contains k = true
    · simp only [get_primary_loop, hk, if_true] at h
      cases hf : fetch k gc with
      | error e2 =>
        rw [hf] at h
        rcases List.mem_cons.mp h with rfl | h'
        · exact ⟨(k, gc), List.mem_cons_self _ _, rfl⟩
        · simp at h'
      | ok new =>
        rw [hf] at h
        rcases List.mem_cons.mp h with rfl | h'
        · exact ⟨(k, gc), List.mem_cons_self _ _, rfl⟩
        · obtain ⟨g', hg', he'⟩ := ih (update vers new) (k :: asked) e h'
          exact ⟨g', List.mem_cons_of_mem _ hg', he'⟩
    · simp only [get_primary_loop] at h
      rw [if_neg hk] at h
      simp at h

theorem get_primary_events_primary (fetch : Fetcher) (c : Config) (vers : RMap) :
    ∀ e ∈ (get_primary fetch c vers).1, ∃ kv ∈ c, kv.2.primary = some e.1 := by
  intro e he
  obtain ⟨g, hg, hek⟩ :=
    get_primary_loop_events_key fetch (primaryGroups c) vers [] e he
  obtain ⟨k, gc⟩ := g
  obtain ⟨kv, hkv, hp⟩ := primaryGroups_key_exists hg
  refine ⟨kv, hkv, ?_⟩
  simp only at hek
  rw [hek]
  exact hp

theorem get_vers_events (fetch : Fetcher) (args : Args) (c : Config) :
    ∀ e ∈ (get_vers fetch args c).1,
      (∃ kv ∈ c, kv.2.primary = some e.1) ∨ e.1 ∈ sources_list := by
  intro e he
  simp only [get_vers] at he
  split at he
  · rename_i e2 heq
    by_cases hp : args.primary
    · simp only [hp, if_true] at he
      exact Or.inl (get_primary_events_primary fetch c emptyMap e (by simpa using he))
    · simp [hp] at he
  · rename_i v0 asked heq
    have hprim : e ∈ (if args.primary then get_primary fetch c emptyMap
          else ([], .ok (emptyMap, []))).1 →
        (∃ kv ∈ c, kv.2.primary = some e.1) ∨ e.1 ∈ sources_list := by
      intro h'
      by_cases hp : args.primary
      · simp only [hp, if_true] at h'
        exact Or.inl (get_primary_events_primary fetch c emptyMap e h')
      · simp [hp] at h'
    split at he <;> split at he
    all_goals try exact hprim (by simpa using he)
    all_goals
      simp only [List.mem_append] at he
      rcases he with h' | h'
      · exact hprim h'
      · exact Or.inr (get_secondary_events_sources fetch args.trust_secondary c
          v0 asked _ e h')

/-- C10: the secondary cascade only ever invokes the four statically
listed providers `github`, `gitlab`, `aur`, `arch` — never `github_tags`,
`gitlab_tags` or `git` — under any flag setting; in a whole run, any event
for a provider outside that static list can only come from the primary
phase, i.e. from some package naming it as its `primary` source. -/
theorem C10_secondary_sources_static :
    (∀ (fetch : Fetcher) (ts : Bool) (c : Config) (vers : RMap)
        (asked : List String) (left : Config) (l : String → List String → Bool),
        ∀ e ∈ (run_secondary fetch ts c vers asked left l).1,
          e.1 ∈ sources_list
          ∧ e.1 ∉ (["github_tags", "gitlab_tags", "git"] : List String))
    ∧ (∀ (fetch : Fetcher) (args : Args) (c : Config),
        ∀ e ∈ (get_vers fetch args c).1,
          e.1 ∈ sources_list ∨ ∃ kv ∈ c, kv.2.primary = some e.1) := by
  have hnot : ∀ x ∈ sources_list,
      x ∉ (["github_tags", "gitlab_tags", "git"] : List String) := by decide
  refine ⟨?_, ?_⟩
  · intro fetch ts c vers asked left l e he
    have h1 := run_secondary_events_sources fetch ts c vers asked left l e he
    exact ⟨h1, hnot e.1 h1⟩
  · intro fetch args c e he
    rcases get_vers_events fetch args c e he with h | h
    · exact Or.inr h
    · exact Or.inl h

/-- Witness for C10 at concrete runs: a secondary event (`github`) and a
primary-phase `github_tags` event caused by a package naming it as
primary. -/
theorem C10_secondary_sources_static_witness :
    ("github" ∈ sources_list
      ∧ "github" ∉ (["github_tags", "gitlab_tags", "git"] : List String))
    ∧ ("github_tags" ∈ sources_list
      ∨ ∃ kv ∈ cfgT, kv.2.primary = some "github_tags") :=
  ⟨C10_secondary_sources_static.1 fetchEmptyF false cfg7 emptyMap [] cfg7
      (fun n a => !(a.contains n)) ("github", ["p"]) (by decide),
   C10_secondary_sources_static.2 fetchEmptyF ⟨true, false, true, true⟩ cfgT
      ("github_tags", ["t"]) (by decide)⟩

end Johnny
